import Mathlib

/-!
Verification of `aitk/algorithms/ga.py` (`GeneticAlgorithm`), a generational
genetic-algorithm engine: population initialization, fitness evaluation with
best-ever tracking, roulette-wheel selection, single-point crossover,
per-gene mutation, elitism and a generation loop.

Shallow embedding conventions:
* Genes are an opaque type `α`; a chromosome is a `List α`; fitness values
  (Python numbers) are `ℚ`.
* Every call to Python's global random source is an explicit input: a call to
  `random.random()` is a rational `r` (theorems assume `0 ≤ r`, and `r < 1`
  where it matters); `random.randrange(a, b)` is modelled by `a + seed % (b - a)`
  for an arbitrary natural seed, which ranges over exactly `[a, b-1]`; the
  chromosomes produced by the overridable `make_random_chromosome` are an
  oracle `ℕ → List α`, and the gene produced by the `mutate_gene` retry loop
  of `mutation` is an oracle `ℕ → α` giving the accepted replacement gene
  per position.
* The overridable `fitness` method is a parameter `f : List α → ℚ` (its
  `**kwargs` are closed over by `f`); the default `isDone` (always `False`)
  is embedded in `evolve`'s loop.
* Python `None` fields that the algorithms never read before assignment are
  given neutral initial values (`[]`, `0`, `none`) in the state record.
-/

namespace GA

/-- The mutable attributes of a `GeneticAlgorithm` instance that the
algorithmic core reads and writes (`ga.py`, `__init__` and
`initializePopulation`). -/
structure GAState (α : Type) where
  length : ℕ
  popSize : ℕ
  pCrossover : ℚ
  pMutation : ℚ
  pElite : ℚ
  generation : ℕ
  bestEver : Option (List α)
  bestEverScore : ℚ
  population : List (List α)
  scores : List ℚ
  totalFitness : ℚ
  bestList : List ℚ
  avgList : List ℚ

/-- Python's `max` on a non-empty list of numbers (`max(self.scores)` in
`evaluatePopulation`); on `[]` (where Python raises) it returns `0`. -/
def pyMax : List ℚ → ℚ
  | [] => 0
  | x :: xs => xs.foldl max x

/-- Python's `list.index`: the index of the first occurrence of `x`
(`self.scores.index(bestScore)`); on a list not containing `x` (where Python
raises) it returns the length. -/
def pyIndex : List ℚ → ℚ → ℕ
  | [], _ => 0
  | y :: ys, x => if y = x then 0 else pyIndex ys x + 1

/-- `GeneticAlgorithm.initializePopulation` (`ga.py` lines 45-63): resets all
run-scoped state and builds a fresh population of `popSize` chromosomes, the
`i`-th produced by `make_random_chromosome` (oracle `chroms i`). -/
def initializePopulation (chroms : ℕ → List α) (g : GAState α) : GAState α :=
  { g with
    bestEver := none
    bestEverScore := 0
    scores := []
    totalFitness := 0
    bestList := []
    avgList := []
    population := (List.range g.popSize).map chroms }

/-- `GeneticAlgorithm.reset` (`ga.py` lines 65-66). -/
def reset (g : GAState α) : GAState α :=
  { g with generation := 0 }

/-- `GeneticAlgorithm.evaluatePopulation` (`ga.py` lines 68-92): scores every
chromosome with `f`, updates the best-ever record when the generation's best
score strictly exceeds it, recomputes `totalFitness`, and appends to the
statistics lists (`bestList` gets the updated `bestEverScore`). -/
def evaluatePopulation (f : List α → ℚ) (g : GAState α) : GAState α :=
  let scores := g.population.map f
  let bestScore := pyMax scores
  let best := g.population.getD (pyIndex scores bestScore) []
  let newBestEver := if bestScore > g.bestEverScore then some best else g.bestEver
  let newBestEverScore := if bestScore > g.bestEverScore then bestScore else g.bestEverScore
  { g with
    bestEver := newBestEver
    bestEverScore := newBestEverScore
    scores := scores
    totalFitness := scores.sum
    bestList := g.bestList ++ [newBestEverScore]
    avgList := g.avgList ++ [scores.sum / (g.popSize : ℚ)] }

/-- The roulette-wheel walk of `GeneticAlgorithm.selection` (`ga.py` lines
105-112): `for i in range(popSize): partialSum += scores[i]; if partialSum >
spin: break`. The walk is over the score vector (identical to the Python loop
whenever `len(scores) == popSize`, the engine invariant); `acc` is the running
sum before the current element and `i` its index. When no partial sum exceeds
`spin` the loop exhausts and `i` keeps its last value. -/
def selectIndexAux (spin : ℚ) : List ℚ → ℚ → ℕ → ℕ
  | [], _, i => i
  | s :: rest, acc, i =>
    if acc + s > spin then i
    else
      match rest with
      | [] => i
      | _ :: _ => selectIndexAux spin rest (acc + s) (i + 1)

/-- `GeneticAlgorithm.selection` (`ga.py` lines 98-113): `spin =
random.random() * totalFitness` with `r` the random draw; returns a copy of
the chromosome at the index where the walk stopped (copying is the identity
here). -/
def selection (g : GAState α) (r : ℚ) : List α :=
  g.population.getD (selectIndexAux (r * g.totalFitness) g.scores 0 0) []

/-- `GeneticAlgorithm.crossover` (`ga.py` lines 115-134): with the draw
`r < pCrossover`, split both parents at `crossPoint = random.randrange(1,
length)` — modelled as `1 + cutSeed % (length - 1)` — and swap tails;
otherwise return the parents unchanged. -/
def crossover (g : GAState α) (r : ℚ) (cutSeed : ℕ) (parent1 parent2 : List α) :
    List α × List α :=
  if r < g.pCrossover then
    let crossPoint := 1 + cutSeed % (g.length - 1)
    (parent1.take crossPoint ++ parent2.drop crossPoint,
     parent2.take crossPoint ++ parent1.drop crossPoint)
  else
    (parent1, parent2)

/-- `GeneticAlgorithm.mutation` (`ga.py` lines 136-151): for each position
`i < length`, with the per-position draw `rs i < pMutation`, replace the gene
by the value the `mutate_gene` retry loop settles on (oracle `muts i`);
otherwise leave it. In the source the chromosome is mutated in place; here the
updated chromosome is returned. -/
def mutation (g : GAState α) (rs : ℕ → ℚ) (muts : ℕ → α) (c : List α) : List α :=
  (List.range g.length).foldl
    (fun ch i => if rs i < g.pMutation then ch.set i (muts i) else ch) c

end GA

namespace GA

variable {α : Type}

/-- Stable insertion of an indexed score into a descending-sorted list: the
new element goes after every element with a strictly greater score, hence
before any element with an equal score. -/
def insertDesc (x : ℕ × ℚ) : List (ℕ × ℚ) → List (ℕ × ℚ)
  | [] => [x]
  | y :: ys => if x.2 < y.2 then y :: insertDesc x ys else x :: y :: ys

/-- Python's `sorted(list(enumerate(scores)), key=lambda item: item[1],
reverse=True)` in `oneGeneration` (`ga.py` line 165): a stable sort by
descending score. Python's sort is stable (equal keys keep their original
order, also under `reverse=True`), and every stable sort by the same key
produces the same list, so stable insertion sort is an exact model. -/
def sortDesc : List (ℕ × ℚ) → List (ℕ × ℚ)
  | [] => []
  | x :: xs => insertDesc x (sortDesc xs)

/-- The per-iteration random draws of the reproduction loop of
`oneGeneration`: the two selection spins, the crossover draw and cut seed,
and the per-child mutation draws and replacement-gene oracles. -/
structure ReproDraws (α : Type) where
  r1 : ℚ
  r2 : ℚ
  rCross : ℚ
  cutSeed : ℕ
  mutR1 : ℕ → ℚ
  mutG1 : ℕ → α
  mutR2 : ℕ → ℚ
  mutG2 : ℕ → α

/-- All random draws of one call to `oneGeneration`: one `ReproDraws` per
iteration of the reproduction loop, and the seed of the final
`random.randrange(len(newPop))` size-correction draw. -/
structure GenDraws (α : Type) where
  repro : ℕ → ReproDraws α
  popSeed : ℕ

/-- One iteration of the reproduction loop of `oneGeneration` (`ga.py`
lines 173-188): select two parents by roulette wheel, cross them over,
mutate each child, and yield the two children to append. -/
def reproChildren (g : GAState α) (dr : ReproDraws α) : List (List α) :=
  let parent1 := selection g dr.r1
  let parent2 := selection g dr.r2
  let children := crossover g dr.rCross dr.cutSeed parent1 parent2
  [mutation g dr.mutR1 dr.mutG1 children.1,
   mutation g dr.mutR2 dr.mutG2 children.2]

/-- The reproduction loop of `oneGeneration` (`ga.py` lines 172-188):
`while len(newPop) < popSize`, append the two children of one reproduction
step. Each iteration appends exactly two children, so the loop runs at most
`popSize` iterations; the `fuel` argument (always instantiated with
`popSize`) makes the recursion structural without changing the result. `k`
counts iterations to index the draw oracle. -/
def fillPop (g : GAState α) (d : ℕ → ReproDraws α) :
    ℕ → ℕ → List (List α) → List (List α)
  | 0, _, newPop => newPop
  | fuel + 1, k, newPop =>
    if newPop.length < g.popSize then
      fillPop g d fuel (k + 1) (newPop ++ reproChildren g (d k))
    else newPop

/-- `GeneticAlgorithm.oneGeneration` (`ga.py` lines 153-192): carry the
`floor(pElite * popSize)` top-ranked chromosomes over unchanged, fill the
rest of the new population with mutated crossover children of
roulette-selected parents, remove one uniformly random individual if the
pairwise filling overshot `popSize` by one, install the new population and
increment the generation counter. `random.randrange(len(newPop))` is
modelled as `popSeed % len(newPop)`. -/
def oneGeneration (d : GenDraws α) (g : GAState α) : GAState α :=
  let eliteSize := (⌊g.pElite * (g.popSize : ℚ)⌋).toNat
  let fittest := sortDesc g.scores.enum
  let elitePop := (List.range eliteSize).map
    (fun i => g.population.getD (fittest.getD i (0, 0)).1 [])
  let newPop := fillPop g d.repro g.popSize 0 elitePop
  let finalPop :=
    if g.popSize < newPop.length then newPop.eraseIdx (d.popSeed % newPop.length)
    else newPop
  { g with population := finalPop, generation := g.generation + 1 }

/-- The generation loop of `GeneticAlgorithm.evolve` (`ga.py` lines 218-220):
`while self.generation < self.maxGen and not self.isDone()`, run
`oneGeneration` then `evaluatePopulation`. The default `isDone` of the class
(`ga.py` lines 262-269) always returns `False` and is embedded as such.
`ds g.generation` supplies the random draws of that generation. -/
def evolveLoop (f : List α → ℚ) (ds : ℕ → GenDraws α) (maxGen : ℕ)
    (g : GAState α) : GAState α :=
  if g.generation < maxGen then
    evolveLoop f ds maxGen (evaluatePopulation f (oneGeneration (ds g.generation) g))
  else g
termination_by maxGen - g.generation
decreasing_by simp [evaluatePopulation, oneGeneration]; omega

/-- `GeneticAlgorithm.evolve` (`ga.py` lines 194-226): store the operator
probabilities, initialize and evaluate the population when the generation
counter is `0`, run the generation loop, and return `self.bestEver` (paired
here with the final state). `maxGen` is passed through rather than stored. -/
def evolve (f : List α → ℚ) (chroms : ℕ → List α) (ds : ℕ → GenDraws α)
    (maxGen : ℕ) (pC pM pE : ℚ) (g : GAState α) : Option (List α) × GAState α :=
  let g0 : GAState α := { g with pCrossover := pC, pMutation := pM, pElite := pE }
  let g1 := if g0.generation = 0
    then evaluatePopulation f (initializePopulation chroms g0) else g0
  let g2 := evolveLoop f ds maxGen g1
  (g2.bestEver, g2)

/-- The attributes set by `GeneticAlgorithm.__init__` (`ga.py` lines 32-43).
`length` and `popSize` are arbitrary integers: the constructor stores them
as given, with no validation of any kind; the evolution parameters are
`None` until `evolve` stores them, likewise unvalidated. -/
structure GAInit where
  verbose : Bool
  length : ℤ
  popSize : ℤ
  maxGen : Option ℕ
  pCrossover : Option ℚ
  pMutation : Option ℚ
  pElite : Option ℚ
  generation : ℕ

/-- `GeneticAlgorithm.__init__` (`ga.py` lines 32-43): a total function — it
stores its arguments unchanged and performs no validation, so construction
succeeds on any input, including non-positive sizes. -/
def init (length popSize : ℤ) (verbose : Bool) : GAInit :=
  { verbose := verbose
    length := length
    popSize := popSize
    maxGen := none
    pCrossover := none
    pMutation := none
    pElite := none
    generation := 0 }

/-- The engine states reachable in a run: some state right after
`initializePopulation`, closed under `evaluatePopulation`, `oneGeneration`
and `reset` with arbitrary fitness functions and random draws. -/
inductive Reach : GAState α → Prop where
  | start (g : GAState α) (chroms : ℕ → List α) :
      Reach (initializePopulation chroms g)
  | eval (g : GAState α) (f : List α → ℚ) :
      Reach g → Reach (evaluatePopulation f g)
  | gen (g : GAState α) (d : GenDraws α) :
      Reach g → Reach (oneGeneration d g)
  | rst (g : GAState α) : Reach g → Reach (reset g)

/-- The engine state of the concrete counterexample run: population size 4,
elite fraction 1/4 (one elite), the unique top scorer `[10]` at index 0 with
score 5, crossover and mutation switched off. -/
def cexState : GAState ℤ :=
  { length := 1
    popSize := 4
    pCrossover := 0
    pMutation := 0
    pElite := 1/4
    generation := 0
    bestEver := none
    bestEverScore := 5
    population := [[10], [0], [0], [0]]
    scores := [5, 1, 1, 1]
    totalFitness := 8
    bestList := [5]
    avgList := [2]
    }

/-- The concrete random draws of the counterexample: both selection spins
draw `3/4` (so `spin = 6` selects index 2, chromosome `[0]`), no crossover
fires (`1/2 < 0` is false), no mutation fires, and the size-correction
removal draws index `0 % 5 = 0` — the elite's slot. -/
def cexDraws : GenDraws ℤ :=
  { repro := fun _ =>
      { r1 := 3/4, r2 := 3/4, rCross := 1/2, cutSeed := 0,
        mutR1 := fun _ => 1/2, mutG1 := fun _ => 0,
        mutR2 := fun _ => 1/2, mutG2 := fun _ => 0 }
    popSeed := 0 }

/-- A concrete engine state over integer genes for instantiating theorems;
the run-scoped fields not passed in are empty or zero. -/
def testState (len pop : ℕ) (pC pM pE : ℚ) (ps : List (List ℤ))
    (ss : List ℚ) (tf : ℚ) : GAState ℤ :=
  { length := len
    popSize := pop
    pCrossover := pC
    pMutation := pM
    pElite := pE
    generation := 0
    bestEver := none
    bestEverScore := 0
    population := ps
    scores := ss
    totalFitness := tf
    bestList := []
    avgList := [] }

/-- A concrete fitness function with a tie: both `[1]` chromosomes score 2,
everything else scores 1. -/
def tieFitness (c : List ℤ) : ℚ := if c = [1] then 2 else 1

/-- Trivial concrete draws for instantiating theorems: every random value
is zero. -/
def zeroDraws : GenDraws ℤ :=
  { repro := fun _ =>
      { r1 := 0, r2 := 0, rCross := 0, cutSeed := 0,
        mutR1 := fun _ => 0, mutG1 := fun _ => 0,
        mutR2 := fun _ => 0, mutG2 := fun _ => 0 }
    popSeed := 0 }

end GA

namespace GA

variable {α : Type}

/-- Helper: a fold of per-index conditional updates where no condition fires
is the identity. -/
theorem mutation_foldl_id (pM : ℚ) (rs : ℕ → ℚ) (muts : ℕ → α)
    (idxs : List ℕ) (c : List α) (h : ∀ i ∈ idxs, ¬ rs i < pM) :
    idxs.foldl (fun ch i => if rs i < pM then ch.set i (muts i) else ch) c = c := by
  induction idxs generalizing c with
  | nil => rfl
  | cons j js ih =>
    have hj : ¬ rs j < pM := h j (List.mem_cons_self j js)
    simp only [List.foldl_cons, if_neg hj]
    exact ih c fun i hi => h i (List.mem_cons_of_mem j hi)

/-- C7: with `pMutation = 0`, `mutation` leaves every chromosome unchanged:
no gene position is modified (each per-position draw `rs i` is a
`random.random()` value, hence non-negative, so `rs i < 0` never holds). -/
theorem mutation_pZero_id (g : GAState α) (rs : ℕ → ℚ) (muts : ℕ → α)
    (c : List α) (hp : g.pMutation = 0) (hr : ∀ i, 0 ≤ rs i) :
    mutation g rs muts c = c := by
  unfold mutation
  exact mutation_foldl_id _ rs muts _ c fun i _ => by
    rw [hp]; exact not_lt.mpr (hr i)

/-- Witness for C7 at a concrete state and chromosome. -/
theorem mutation_pZero_id_witness :
    mutation (testState 3 2 0 0 0 [] [] 0)
      (fun _ => 1/2) (fun _ => (9 : ℤ)) [4, 5, 6] = [4, 5, 6] :=
  mutation_pZero_id _ _ _ _ rfl (fun _ => by norm_num)

/-- C4: with `pCrossover = 1` every crossover call splits at a cut point `k`
in `[1, length-1]` (the value of `randrange(1, length)`, defined for
`length ≥ 2`) and returns exactly `(a[:k] + b[k:], b[:k] + a[k:])`; with
`pCrossover = 0` it returns the parents unchanged. The draw `r` is a
`random.random()` value, so `0 ≤ r < 1`. -/
theorem crossover_endpoint_probs (g : GAState α) :
    (∀ (r : ℚ) (cutSeed : ℕ) (a b : List α),
      g.pCrossover = 1 → 0 ≤ r → r < 1 → 2 ≤ g.length →
      ∃ k, 1 ≤ k ∧ k ≤ g.length - 1 ∧
        crossover g r cutSeed a b = (a.take k ++ b.drop k, b.take k ++ a.drop k)) ∧
    (∀ (r : ℚ) (cutSeed : ℕ) (a b : List α),
      g.pCrossover = 0 → 0 ≤ r → crossover g r cutSeed a b = (a, b)) := by
  constructor
  · intro r cutSeed a b h1 _hr0 hr1 hlen
    refine ⟨1 + cutSeed % (g.length - 1), Nat.le_add_right 1 _, ?_, ?_⟩
    · have : cutSeed % (g.length - 1) < g.length - 1 := Nat.mod_lt _ (by omega)
      omega
    · unfold crossover
      rw [h1, if_pos hr1]
  · intro r cutSeed a b h0 hr0
    unfold crossover
    rw [h0, if_neg (not_lt.mpr hr0)]

/-- Witness for C4 at concrete parents, states with `pCrossover = 1` and
`pCrossover = 0`, and draw `r = 1/2`. -/
theorem crossover_endpoint_probs_witness :
    (∃ k, 1 ≤ k ∧ k ≤ (testState 3 2 1 0 0 [] [] 0).length - 1 ∧
      crossover (testState 3 2 1 0 0 [] [] 0) (1/2) 5 [(1 : ℤ), 2, 3] [4, 5, 6] =
        ([(1 : ℤ), 2, 3].take k ++ [4, 5, 6].drop k,
         [4, 5, 6].take k ++ [(1 : ℤ), 2, 3].drop k)) ∧
    crossover (testState 3 2 0 0 0 [] [] 0) (1/2) 5 [(1 : ℤ), 2, 3] [4, 5, 6] =
      ([(1 : ℤ), 2, 3], [4, 5, 6]) :=
  ⟨(crossover_endpoint_probs _).1 (1/2) 5 _ _ rfl (by norm_num) (by norm_num)
      (by norm_num [testState]),
   (crossover_endpoint_probs _).2 (1/2) 5 _ _ rfl (by norm_num)⟩

/-- C8: with a fixed (deterministic) fitness function, two successive calls
to `evaluatePopulation` with no intervening `oneGeneration` produce the same
score vector, and neither call changes the population (no chromosome is
mutated: evaluation only reads the population). -/
theorem evaluatePopulation_deterministic (f : List α → ℚ) (g : GAState α) :
    (evaluatePopulation f (evaluatePopulation f g)).scores
        = (evaluatePopulation f g).scores ∧
    (evaluatePopulation f g).population = g.population ∧
    (evaluatePopulation f (evaluatePopulation f g)).population = g.population := by
  refine ⟨?_, rfl, rfl⟩
  simp [evaluatePopulation]

/-- Helper: `pyIndex` returns the given index when it holds the sought value
and no smaller index does. -/
theorem pyIndex_first (l : List ℚ) (x : ℚ) :
    ∀ i, i < l.length → l.getD i 0 = x → (∀ j, j < i → l.getD j 0 ≠ x) →
      pyIndex l x = i := by
  induction l with
  | nil => intro i hi _ _; simp at hi
  | cons y ys ih =>
    intro i hi hx hfirst
    cases i with
    | zero =>
      unfold pyIndex
      rw [if_pos (by simpa using hx)]
    | succ j =>
      have hy : ¬ y = x := by simpa using hfirst 0 (Nat.succ_pos j)
      unfold pyIndex
      rw [if_neg hy]
      have hrec := ih j (by simpa using hi) (by simpa using hx)
        (fun j' hj' => by simpa using hfirst (j' + 1) (Nat.succ_lt_succ hj'))
      omega

/-- C10: on a tie for the maximum score, the chromosome at the lowest
population index is the generation's best (`scores.index(bestScore)` returns
the first occurrence), and only it can become the new best-ever record. -/
theorem evaluatePopulation_tie_lowest_index (f : List α → ℚ) (g : GAState α)
    (i : ℕ) (hi : i < g.population.length)
    (hmax : (g.population.map f).getD i 0 = pyMax (g.population.map f))
    (hfirst : ∀ j, j < i →
      (g.population.map f).getD j 0 ≠ pyMax (g.population.map f)) :
    (evaluatePopulation f g).bestEver =
      if pyMax (g.population.map f) > g.bestEverScore
      then some (g.population.getD i [])
      else g.bestEver := by
  have hidx : pyIndex (g.population.map f) (pyMax (g.population.map f)) = i :=
    pyIndex_first _ _ i (by simpa using hi) hmax hfirst
  simp only [evaluatePopulation, hidx]

/-- Witness for C10: population `[[0], [1], [1]]` under `tieFitness` scores
`[1, 2, 2]`; the two `[1]` chromosomes tie for the maximum and the one at
index 1 is the generation's best. -/
theorem evaluatePopulation_tie_lowest_index_witness :
    (evaluatePopulation tieFitness
        (testState 1 3 0 0 0 [[0], [1], [1]] [] 0)).bestEver =
      if pyMax ((testState 1 3 0 0 0 [[0], [1], [1]] [] 0).population.map tieFitness) >
          (testState 1 3 0 0 0 [[0], [1], [1]] [] 0).bestEverScore
      then some ((testState 1 3 0 0 0 [[0], [1], [1]] [] 0).population.getD 1 [])
      else (testState 1 3 0 0 0 [[0], [1], [1]] [] 0).bestEver :=
  evaluatePopulation_tie_lowest_index tieFitness _ 1
    (by norm_num [testState])
    (by norm_num [testState, tieFitness, pyMax, max_def])
    (by
      intro j hj
      have hj0 : j = 0 := by omega
      subst hj0
      norm_num [testState, tieFitness, pyMax, max_def])

/-- Helper: when every score is zero and the spin is zero, the roulette walk
never breaks and ends at the last index. -/
theorem selectIndexAux_all_zero (l : List ℚ) :
    ∀ i, (∀ x ∈ l, x = 0) → l ≠ [] →
      selectIndexAux 0 l 0 i = i + l.length - 1 := by
  induction l with
  | nil => intro i _ h; exact absurd rfl h
  | cons s rest ih =>
    intro i hz _
    have hs : s = 0 := hz s (List.mem_cons_self _ _)
    unfold selectIndexAux
    rw [hs, if_neg (by norm_num)]
    cases rest with
    | nil => simp
    | cons t ts =>
      have hrec := ih (i + 1) (fun x hx => hz x (List.mem_cons_of_mem _ hx))
        (by simp)
      rw [add_zero, hrec]
      simp only [List.length_cons]
      omega

/-- Helper: the roulette walk stops at the first index whose running sum
(started from `acc`) strictly exceeds the spin. -/
theorem selectIndexAux_break (spin : ℚ) (l : List ℚ) :
    ∀ acc i k, k < l.length →
      acc + (l.take (k + 1)).sum > spin →
      (∀ j, j < k → ¬ acc + (l.take (j + 1)).sum > spin) →
      selectIndexAux spin l acc i = i + k := by
  induction l with
  | nil => intro acc i k hk; simp at hk
  | cons s rest ih =>
    intro acc i k hk hbreak hmin
    cases k with
    | zero =>
      have hb : acc + s > spin := by simpa using hbreak
      unfold selectIndexAux
      rw [if_pos hb]
      omega
    | succ m =>
      have hnb : ¬ acc + s > spin := by simpa using hmin 0 (Nat.succ_pos m)
      unfold selectIndexAux
      rw [if_neg hnb]
      have hm : m < rest.length := by simpa using hk
      cases rest with
      | nil => simp at hm
      | cons t ts =>
        have hb' : (acc + s) + (((t :: ts).take (m + 1)).sum) > spin := by
          simpa [List.take_succ_cons, List.sum_cons, add_assoc] using hbreak
        have hmin' : ∀ j, j < m →
            ¬ (acc + s) + (((t :: ts).take (j + 1)).sum) > spin := by
          intro j hj
          simpa [List.take_succ_cons, List.sum_cons, add_assoc]
            using hmin (j + 1) (Nat.succ_lt_succ hj)
        show selectIndexAux spin (t :: ts) (acc + s) (i + 1) = i + (m + 1)
        rw [ih (acc + s) (i + 1) m hm hb' hmin']
        omega

/-- C5: when every score is zero (so `totalFitness = 0` and the spin is
`r * 0 = 0`), `selection` falls through the loop without error and returns a
copy of the last chromosome; in general it returns a copy of the first
chromosome whose cumulative score strictly exceeds the spin
`r * totalFitness`. -/
theorem selection_spec (g : GAState α) (r : ℚ) :
    ((g.population.length = g.popSize → g.scores.length = g.popSize →
      0 < g.popSize → (∀ x ∈ g.scores, x = 0) → g.totalFitness = 0 →
      selection g r = g.population.getD (g.population.length - 1) []) ∧
     (∀ k, k < g.scores.length →
      (g.scores.take (k + 1)).sum > r * g.totalFitness →
      (∀ j, j < k → ¬ (g.scores.take (j + 1)).sum > r * g.totalFitness) →
      selection g r = g.population.getD k [])) := by
  constructor
  · intro hpl hsl hpos hz htf
    unfold selection
    rw [htf, mul_zero]
    rw [selectIndexAux_all_zero g.scores 0 hz
      (by rw [← List.length_pos]; omega)]
    rw [hsl, hpl]
    norm_num
  · intro k hk hbreak hmin
    unfold selection
    rw [selectIndexAux_break (r * g.totalFitness) g.scores 0 0 k hk
      (by simpa using hbreak)
      (fun j hj => by simpa using hmin j hj)]
    norm_num

/-- Witness for C5: a degenerate all-zero run over `[[3], [4]]` returns the
last chromosome, and a run with scores `[1, 2]`, total fitness 3 and spin
`3/2` stops at index 1. -/
theorem selection_spec_witness :
    (selection (testState 1 2 0 0 0 [[3], [4]] [0, 0] 0) (1/2) =
      (testState 1 2 0 0 0 [[3], [4]] [0, 0] 0).population.getD
        ((testState 1 2 0 0 0 [[3], [4]] [0, 0] 0).population.length - 1) []) ∧
    (selection (testState 1 2 0 0 0 [[3], [4]] [1, 2] 3) (1/2) =
      (testState 1 2 0 0 0 [[3], [4]] [1, 2] 3).population.getD 1 []) :=
  ⟨(selection_spec _ (1/2)).1 rfl rfl (by norm_num [testState])
      (by intro x hx; simpa [testState] using hx) rfl,
   (selection_spec _ (1/2)).2 1 (by norm_num [testState])
      (by norm_num [testState])
      (by
        intro j hj
        have hj0 : j = 0 := by omega
        subst hj0
        norm_num [testState])⟩

/-- Helper: each reproduction step yields exactly two children. -/
theorem reproChildren_length (g : GAState α) (dr : ReproDraws α) :
    (reproChildren g dr).length = 2 := rfl

/-- Helper: once the partial population is full the loop stops at once. -/
theorem fillPop_stop (g : GAState α) (d : ℕ → ReproDraws α) (fuel k : ℕ)
    (newPop : List (List α)) (h : ¬ newPop.length < g.popSize) :
    fillPop g d fuel k newPop = newPop := by
  cases fuel with
  | zero => rfl
  | succ n => unfold fillPop; rw [if_neg h]

/-- Helper: the reproduction loop only appends to the partial population. -/
theorem fillPop_append (g : GAState α) (d : ℕ → ReproDraws α) :
    ∀ fuel k newPop, ∃ t, fillPop g d fuel k newPop = newPop ++ t := by
  intro fuel
  induction fuel with
  | zero => exact fun k newPop => ⟨[], by simp [fillPop]⟩
  | succ n ih =>
    intro k newPop
    unfold fillPop
    by_cases h : newPop.length < g.popSize
    · rw [if_pos h]
      obtain ⟨t, ht⟩ := ih (k + 1) (newPop ++ reproChildren g (d k))
      exact ⟨reproChildren g (d k) ++ t, by rw [ht, List.append_assoc]⟩
    · rw [if_neg h]
      exact ⟨[], by simp⟩

/-- Helper: with enough fuel the loop fills the population to `popSize`,
overshooting by at most one (children arrive in pairs). -/
theorem fillPop_length_bounds (g : GAState α) (d : ℕ → ReproDraws α) :
    ∀ fuel newPop k, newPop.length ≤ g.popSize →
      g.popSize ≤ newPop.length + 2 * fuel →
      g.popSize ≤ (fillPop g d fuel k newPop).length ∧
        (fillPop g d fuel k newPop).length ≤ g.popSize + 1 := by
  intro fuel
  induction fuel with
  | zero =>
    intro newPop k h1 h2
    simp only [fillPop]
    omega
  | succ n ih =>
    intro newPop k h1 h2
    unfold fillPop
    by_cases h : newPop.length < g.popSize
    · rw [if_pos h]
      have hlen : (newPop ++ reproChildren g (d k)).length = newPop.length + 2 := by
        rw [List.length_append, reproChildren_length]
      by_cases h3 : newPop.length + 2 ≤ g.popSize
      · exact ih _ (k + 1) (by omega) (by omega)
      · rw [fillPop_stop g d n (k + 1) _ (by omega)]
        omega
    · rw [if_neg h]
      omega

/-- Helper: when the remaining gap is even the loop lands exactly on
`popSize` — no overshoot, so no size correction follows. -/
theorem fillPop_length_even (g : GAState α) (d : ℕ → ReproDraws α) :
    ∀ fuel newPop k, newPop.length ≤ g.popSize →
      g.popSize ≤ newPop.length + 2 * fuel →
      2 ∣ (g.popSize - newPop.length) →
      (fillPop g d fuel k newPop).length = g.popSize := by
  intro fuel
  induction fuel with
  | zero =>
    intro newPop k h1 h2 _
    simp only [fillPop]
    omega
  | succ n ih =>
    intro newPop k h1 h2 hdvd
    unfold fillPop
    by_cases h : newPop.length < g.popSize
    · rw [if_pos h]
      have hlen : (newPop ++ reproChildren g (d k)).length = newPop.length + 2 := by
        rw [List.length_append, reproChildren_length]
      exact ih _ (k + 1) (by omega) (by omega) (by omega)
    · rw [if_neg h]
      omega

/-- Helper: with `pElite ≤ 1` the elite count `floor(pElite * popSize)`
never exceeds the population size. -/
theorem eliteSize_le_popSize (g : GAState α) (hE : g.pElite ≤ 1) :
    (⌊g.pElite * (g.popSize : ℚ)⌋).toNat ≤ g.popSize := by
  have h1 : g.pElite * (g.popSize : ℚ) ≤ (g.popSize : ℚ) := by
    calc g.pElite * (g.popSize : ℚ) ≤ 1 * (g.popSize : ℚ) :=
          mul_le_mul_of_nonneg_right hE (by positivity)
      _ = (g.popSize : ℚ) := one_mul _
  have h2 : ⌊g.pElite * (g.popSize : ℚ)⌋ ≤ (g.popSize : ℤ) := by
    calc ⌊g.pElite * (g.popSize : ℚ)⌋ ≤ ⌊((g.popSize : ℤ) : ℚ)⌋ :=
          Int.floor_le_floor (by exact_mod_cast h1)
      _ = (g.popSize : ℤ) := Int.floor_intCast _
  omega

/-- C1: the population size invariant. `initializePopulation` builds exactly
`popSize` chromosomes; `oneGeneration` (with the configured `pElite ≤ 1`)
replaces the population by one of exactly `popSize` chromosomes; and
`evaluatePopulation` defines one score per chromosome without changing the
population, so `len(scores) = len(population) = popSize` whenever both are
defined. -/
theorem population_size_invariant :
    (∀ (g : GAState α) (chroms : ℕ → List α),
      (initializePopulation chroms g).population.length = g.popSize) ∧
    (∀ (g : GAState α) (d : GenDraws α), g.pElite ≤ 1 →
      (oneGeneration d g).population.length = g.popSize) ∧
    (∀ (g : GAState α) (f : List α → ℚ),
      (evaluatePopulation f g).scores.length
          = (evaluatePopulation f g).population.length ∧
        (evaluatePopulation f g).population = g.population) := by
  refine ⟨fun g chroms => by simp [initializePopulation], ?_,
    fun g f => ⟨by simp [evaluatePopulation], rfl⟩⟩
  intro g d hE
  have hElite := eliteSize_le_popSize g hE
  simp only [oneGeneration]
  have hlenE : ((List.range (⌊g.pElite * (g.popSize : ℚ)⌋).toNat).map
      (fun i => g.population.getD
        ((sortDesc g.scores.enum).getD i (0, 0)).1 [])).length
        = (⌊g.pElite * (g.popSize : ℚ)⌋).toNat := by
    rw [List.length_map, List.length_range]
  have hb := fillPop_length_bounds g d.repro g.popSize
    ((List.range (⌊g.pElite * (g.popSize : ℚ)⌋).toNat).map
      (fun i => g.population.getD
        ((sortDesc g.scores.enum).getD i (0, 0)).1 [])) 0
    (by omega) (by omega)
  by_cases h : g.popSize < (fillPop g d.repro g.popSize 0
      ((List.range (⌊g.pElite * (g.popSize : ℚ)⌋).toNat).map
        (fun i => g.population.getD
          ((sortDesc g.scores.enum).getD i (0, 0)).1 []))).length
  · rw [if_pos h, List.length_eraseIdx_of_lt (Nat.mod_lt _ (by omega))]
    omega
  · rw [if_neg h]
    omega

/-- Witness for C1 at a concrete state: initialization of 3 chromosomes, one
generation over a filled 3-member state with `pElite = 1/2`, and one
evaluation. -/
theorem population_size_invariant_witness :
    (initializePopulation (fun _ => [(0 : ℤ)])
        (testState 1 3 0 0 0 [] [] 0)).population.length = 3 ∧
    (oneGeneration zeroDraws
        (testState 1 3 0 0 (1/2) [[1], [2], [3]] [1, 1, 1] 3)).population.length = 3 ∧
    ((evaluatePopulation (fun _ => (1 : ℚ))
        (testState 1 3 0 0 0 [[1], [2], [3]] [] 0)).scores.length
          = (evaluatePopulation (fun _ => (1 : ℚ))
        (testState 1 3 0 0 0 [[1], [2], [3]] [] 0)).population.length ∧
      (evaluatePopulation (fun _ => (1 : ℚ))
        (testState 1 3 0 0 0 [[1], [2], [3]] [] 0)).population
          = (testState 1 3 0 0 0 [[1], [2], [3]] [] 0).population) :=
  ⟨population_size_invariant.1 _ _,
   population_size_invariant.2.1 _ zeroDraws (by norm_num [testState]),
   population_size_invariant.2.2 _ _⟩

/-- C3 counterexample: in `cexState` (`popSize = 4`, `pElite = 1/4`, elite
count 1) the unique top scorer is `[10]` at index 0 (score 5, all others 1),
yet after `oneGeneration` with the legal draws `cexDraws` the new population
is `[[0], [0], [0], [0]]`: the reproduction loop overshot by one (4 - 1 is
odd) and the uniform size-correction removal drew index 0, deleting the
elite, so the highest-scoring chromosome of the prior generation does not
appear in the new population. -/
theorem oneGeneration_elite_lost_counterexample :
    ⌊cexState.pElite * (cexState.popSize : ℚ)⌋.toNat = 1 ∧
    sortDesc cexState.scores.enum = [(0, 5), (1, 1), (2, 1), (3, 1)] ∧
    cexState.population.getD 0 [] = [10] ∧
    (oneGeneration cexDraws cexState).population = [[0], [0], [0], [0]] ∧
    [(10 : ℤ)] ∉ [([0] : List ℤ), [0], [0], [0]] := by
  refine ⟨by norm_num [cexState], ?_, rfl, ?_, by simp⟩
  · norm_num [cexState, sortDesc, insertDesc, List.enum]
  · norm_num [oneGeneration, cexDraws, cexState, fillPop, reproChildren,
      selection, selectIndexAux, crossover, mutation, sortDesc, insertDesc,
      List.enum, List.range_succ]

/-- C3 amended: each of the `floor(pElite * popSize)` highest-scoring
chromosomes of the prior generation (the prefix of the code's stable
descending sort) appears, unchanged by value, in the population produced by
`oneGeneration` — provided no size-correction removal happens, which is
guaranteed whenever `popSize - floor(pElite * popSize)` is even (the
reproduction loop then lands exactly on `popSize`). When that difference is
odd, the uniformly random removal may delete an elite, as the counterexample
shows. -/
theorem oneGeneration_elites_survive (g : GAState α) (d : GenDraws α)
    (hE : g.pElite ≤ 1)
    (heven : 2 ∣ (g.popSize - (⌊g.pElite * (g.popSize : ℚ)⌋).toNat)) :
    ∀ i, i < (⌊g.pElite * (g.popSize : ℚ)⌋).toNat →
      g.population.getD ((sortDesc g.scores.enum).getD i (0, 0)).1 []
        ∈ (oneGeneration d g).population := by
  intro i hi
  have hElite := eliteSize_le_popSize g hE
  simp only [oneGeneration]
  have hlenE : ((List.range (⌊g.pElite * (g.popSize : ℚ)⌋).toNat).map
      (fun i => g.population.getD
        ((sortDesc g.scores.enum).getD i (0, 0)).1 [])).length
        = (⌊g.pElite * (g.popSize : ℚ)⌋).toNat := by
    rw [List.length_map, List.length_range]
  have hfull := fillPop_length_even g d.repro g.popSize
    ((List.range (⌊g.pElite * (g.popSize : ℚ)⌋).toNat).map
      (fun i => g.population.getD
        ((sortDesc g.scores.enum).getD i (0, 0)).1 [])) 0
    (by omega) (by omega) (by omega)
  rw [if_neg (by omega)]
  obtain ⟨t, ht⟩ := fillPop_append g d.repro g.popSize 0
    ((List.range (⌊g.pElite * (g.popSize : ℚ)⌋).toNat).map
      (fun i => g.population.getD
        ((sortDesc g.scores.enum).getD i (0, 0)).1 []))
  rw [ht]
  refine List.mem_append_left t ?_
  exact List.mem_map.mpr ⟨i, List.mem_range.mpr hi, rfl⟩

/-- Witness for C3 amended: `popSize = 4`, `pElite = 1/2`, elite count 2,
gap `4 - 2` even; the top-ranked chromosome (index 2, score 3) survives into
the next generation. -/
theorem oneGeneration_elites_survive_witness :
    (testState 1 4 0 0 (1/2) [[7], [8], [9], [6]] [2, 1, 3, 1] 7).population.getD
        ((sortDesc (testState 1 4 0 0 (1/2) [[7], [8], [9], [6]]
            [2, 1, 3, 1] 7).scores.enum).getD 0 (0, 0)).1 []
      ∈ (oneGeneration zeroDraws
          (testState 1 4 0 0 (1/2) [[7], [8], [9], [6]] [2, 1, 3, 1] 7)).population :=
  oneGeneration_elites_survive _ zeroDraws (by norm_num [testState])
    (by norm_num [testState]; decide) 0 (by norm_num [testState])

/-- Helper invariant over reachable states: `bestList` is a `≤`-chain and
every entry is bounded by the current `bestEverScore` (the entry appended by
an evaluation is the updated best-ever score, which never decreases). -/
theorem reach_bestList_chain (g : GAState α) (h : Reach g) :
    List.Chain' (· ≤ ·) g.bestList ∧ ∀ x ∈ g.bestList, x ≤ g.bestEverScore := by
  induction h with
  | start g chroms => simp [initializePopulation]
  | eval g f _ ih =>
    obtain ⟨hc, hb⟩ := ih
    have hmono : g.bestEverScore ≤
        (if pyMax (g.population.map f) > g.bestEverScore
          then pyMax (g.population.map f) else g.bestEverScore) := by
      split
      · exact le_of_lt (by assumption)
      · exact le_rfl
    simp only [evaluatePopulation]
    constructor
    · refine List.Chain'.append hc (List.chain'_singleton _) ?_
      intro x hx y hy
      have hxm : x ∈ g.bestList := List.mem_of_mem_getLast? hx
      have hy' : (if pyMax (g.population.map f) > g.bestEverScore
          then pyMax (g.population.map f) else g.bestEverScore) = y := by
        simpa using hy
      rw [← hy']
      exact le_trans (hb x hxm) hmono
    · intro x hx
      rcases List.mem_append.mp hx with h1 | h1
      · exact le_trans (hb x h1) hmono
      · simp only [List.mem_singleton] at h1
        rw [h1]
  | gen g d _ ih => simpa [oneGeneration] using ih
  | rst g _ ih => simpa [reset] using ih

/-- C2: for every reachable run state the per-generation best-ever history
`bestList` is non-decreasing; the best-ever record changes under
`evaluatePopulation` only when the generation's maximum fitness strictly
exceeds the stored best-ever score, and it survives population replacement
(`oneGeneration`) untouched. -/
theorem bestList_monotone :
    (∀ (g : GAState α), Reach g → List.Chain' (· ≤ ·) g.bestList) ∧
    (∀ (g : GAState α) (f : List α → ℚ),
      (evaluatePopulation f g).bestEver ≠ g.bestEver →
      pyMax (g.population.map f) > g.bestEverScore) ∧
    (∀ (g : GAState α) (d : GenDraws α),
      (oneGeneration d g).bestEver = g.bestEver) := by
  refine ⟨fun g h => (reach_bestList_chain g h).1, ?_, fun g d => rfl⟩
  intro g f hne
  by_contra hle
  apply hne
  simp only [evaluatePopulation, if_neg hle]

/-- Witness for C2: the chain property at the freshly initialized state, the
strict-increase consequence at a one-chromosome state whose best-ever record
does change, and best-ever preservation across one concrete generation. -/
theorem bestList_monotone_witness :
    List.Chain' (· ≤ ·)
      (initializePopulation (fun _ => [(0 : ℤ)])
        (testState 1 2 0 0 0 [] [] 0)).bestList ∧
    pyMax ((testState 1 1 0 0 0 [[1]] [] 0).population.map (fun _ => (1 : ℚ))) >
      (testState 1 1 0 0 0 [[1]] [] 0).bestEverScore ∧
    (oneGeneration zeroDraws (testState 1 1 0 0 0 [[1]] [1] 1)).bestEver =
      (testState 1 1 0 0 0 [[1]] [1] 1).bestEver :=
  ⟨bestList_monotone.1 _ (Reach.start _ _),
   bestList_monotone.2.1 _ (fun _ => (1 : ℚ))
     (by
       norm_num [evaluatePopulation, testState, pyMax, pyIndex]
       exact fun h => Option.noConfusion h),
   bestList_monotone.2.2 _ zeroDraws⟩

/-- Helper: the maximum of an all-zero score list is the zero sentinel. -/
theorem pyMax_all_zero (l : List ℚ) (h : ∀ x ∈ l, x = 0) : pyMax l = 0 := by
  cases l with
  | nil => rfl
  | cons x xs =>
    have hx : x = 0 := h x (List.mem_cons_self _ _)
    have hxs : ∀ y ∈ xs, y = 0 := fun y hy => h y (List.mem_cons_of_mem _ hy)
    unfold pyMax
    rw [hx]
    clear hx h
    induction xs with
    | nil => rfl
    | cons y ys ih =>
      have hy : y = 0 := hxs y (List.mem_cons_self _ _)
      simp only [List.foldl_cons, hy, max_self]
      exact ih fun z hz => hxs z (List.mem_cons_of_mem _ hz)

/-- Helper: under an identically-zero fitness function, `evaluatePopulation`
keeps the unset best-ever record: the generation maximum equals the zero
sentinel, never strictly exceeds it, and the update is skipped. -/
theorem evaluatePopulation_zero_preserves (f : List α → ℚ) (hf : ∀ c, f c = 0)
    (g : GAState α) (h1 : g.bestEver = none) (h2 : g.bestEverScore = 0) :
    (evaluatePopulation f g).bestEver = none ∧
      (evaluatePopulation f g).bestEverScore = 0 := by
  have hz : pyMax (g.population.map f) = 0 :=
    pyMax_all_zero _ (by
      intro x hx
      obtain ⟨c, _, rfl⟩ := List.mem_map.mp hx
      exact hf c)
  simp only [evaluatePopulation, hz, h2]
  norm_num [h1]

/-- Helper: the generation loop preserves an unset best-ever record when the
fitness function is identically zero. -/
theorem evolveLoop_zero_preserves (f : List α → ℚ) (hf : ∀ c, f c = 0)
    (ds : ℕ → GenDraws α) (maxGen : ℕ) :
    ∀ n (g : GAState α), maxGen - g.generation = n →
      g.bestEver = none → g.bestEverScore = 0 →
      (evolveLoop f ds maxGen g).bestEver = none := by
  intro n
  induction n using Nat.strong_induction_on with
  | _ n ih =>
    intro g hn h1 h2
    unfold evolveLoop
    by_cases h : g.generation < maxGen
    · rw [if_pos h]
      have hgen : (evaluatePopulation f
          (oneGeneration (ds g.generation) g)).generation = g.generation + 1 := by
        simp [evaluatePopulation, oneGeneration]
      have hone1 : (oneGeneration (ds g.generation) g).bestEver = none := h1
      have hone2 : (oneGeneration (ds g.generation) g).bestEverScore = 0 := h2
      have hpres := evaluatePopulation_zero_preserves f hf _ hone1 hone2
      exact ih (maxGen - (g.generation + 1)) (by omega) _ (by rw [hgen])
        hpres.1 hpres.2
    · rw [if_neg h]
      exact h1

/-- C9: if the fitness function only ever produces the value 0 (so no score
ever strictly exceeds the zero sentinel installed by
`initializePopulation`), the best-ever record is never set during a run
started at generation 0, and `evolve` returns `None`. -/
theorem evolve_all_zero_returns_none (f : List α → ℚ) (chroms : ℕ → List α)
    (ds : ℕ → GenDraws α) (maxGen : ℕ) (pC pM pE : ℚ) (g : GAState α)
    (hf : ∀ c, f c = 0) (h0 : g.generation = 0) :
    (evolve f chroms ds maxGen pC pM pE g).1 = none := by
  simp only [evolve]
  rw [if_pos (show ({ g with pCrossover := pC, pMutation := pM, pElite := pE } :
    GAState α).generation = 0 from h0)]
  have hpres := evaluatePopulation_zero_preserves f hf
    (initializePopulation chroms
      { g with pCrossover := pC, pMutation := pM, pElite := pE }) rfl rfl
  exact evolveLoop_zero_preserves f hf ds maxGen _ _ rfl hpres.1 hpres.2

/-- Witness for C9: a two-chromosome run of one generation under the
constant-zero fitness function returns `None`. -/
theorem evolve_all_zero_returns_none_witness :
    (evolve (fun _ => (0 : ℚ)) (fun _ => [(0 : ℤ)]) (fun _ => zeroDraws) 1
      (7/10) (1/1000) 0 (testState 1 2 0 0 0 [] [] 0)).1 = none :=
  evolve_all_zero_returns_none _ _ _ 1 (7/10) (1/1000) 0 _
    (fun _ => rfl) rfl

/-- C6: the code performs no configuration validation. `__init__` is a total
function that stores even `length = -1, popSize = 0` unchanged and proceeds,
and `evolve` stores out-of-range probabilities (`pCrossover = 2`,
`pMutation = -1`, `pElite = 3/2`) unchanged instead of reporting a
configuration error. -/
theorem init_accepts_invalid_config :
    (init (-1) 0 false).length = -1 ∧
    (init (-1) 0 false).popSize = 0 ∧
    (evolve (fun _ => (0 : ℚ)) (fun _ => [(0 : ℤ)]) (fun _ => zeroDraws) 0
        2 (-1) (3/2) (testState 1 0 0 0 0 [] [] 0)).2.pCrossover = 2 ∧
    (evolve (fun _ => (0 : ℚ)) (fun _ => [(0 : ℤ)]) (fun _ => zeroDraws) 0
        2 (-1) (3/2) (testState 1 0 0 0 0 [] [] 0)).2.pMutation = -1 ∧
    (evolve (fun _ => (0 : ℚ)) (fun _ => [(0 : ℤ)]) (fun _ => zeroDraws) 0
        2 (-1) (3/2) (testState 1 0 0 0 0 [] [] 0)).2.pElite = 3/2 := by
  refine ⟨rfl, rfl, ?_, ?_, ?_⟩ <;>
    simp [evolve, evolveLoop, evaluatePopulation, initializePopulation, testState]

end GA
